import Mathlib

/-!
Verification of the data-extraction pipeline of `extract_data.py`
(HTQF-LSTM-for-UHFD repository).

The development shallowly embeds the parts of the script that the
specification talks about:

* the per-day outlier classifier (sliding sorted window, trimmed
  mean / trimmed standard deviation, `3·std + y` band) and the per-symbol
  grid search over `(k, y)` pairs (script section 3);
* the resampler (right-closed 2-second bins anchored at midnight,
  re-indexing onto the day grid, linear interpolation followed by
  backward fill, summed volume) (script section 4);
* the query loop with its date-narrowing behaviour (script section 2);
* the date / time input validation (script section 1).

Prices and sizes are modelled as exact rationals; the float comparison
`|price - mean| > 3*std + y` (with `std` a real square root) is encoded by
its decidable rational equivalent, and theorems `outB_iff_outlierCond` /
`retainB_iff_retainCond` prove the equivalence with the square-root form.
Time stamps are modelled as natural numbers (a fixed unit per day, e.g.
seconds since midnight), matching pandas' anchoring of 2-second resampling
bins at midnight.
-/

namespace ExtractData

/-! ## Outlier filter: sliding sorted window (script lines 400-423) -/

/-- `np.searchsorted(window, v)` with the default `side='left'` on a sorted
list: the number of leading elements strictly smaller than `v`. -/
def searchsortedLeft (w : List ℚ) (v : ℚ) : Nat :=
  (w.takeWhile (fun x => decide (x < v))).length

/-- `int((k - 1) / 2)` of the script: half-width of the centred window. -/
def centerBeg (k : Nat) : Nat := (k - 1) / 2

/-- One advance of the sliding window (script lines 421-423): the outgoing
price is located by binary search (`np.searchsorted`), overwritten in place
by the incoming price, and the window is re-sorted (`window.sort()`). -/
def slideStep (w : List ℚ) (outP inP : ℚ) : List ℚ :=
  List.insertionSort (· ≤ ·) (w.set (searchsortedLeft w outP) inP)

/-- The window contents after `j` advances, starting from the sorted first
`k` prices (`window = np.sort(price_sym_day[:int(k)])`, line 410).  At loop
position `i = centerBeg k + j` the script drops `price_sym_day[i - center_beg]`
(index `j`) and inserts `price_sym_day[i + center_beg + 1]`
(index `j + 2*center_beg + 1`). -/
def windowIter (k : Nat) (ps : List ℚ) : Nat → List ℚ
  | 0 => List.insertionSort (· ≤ ·) (ps.take k)
  | j + 1 => slideStep (windowIter k ps j) (ps.getD j 0)
      (ps.getD (j + 2 * centerBeg k + 1) 0)

/-! ## Trimmed statistics (script lines 400-401, 416-417) -/

/-- `int(k * delta)` with `delta = 0.1`. -/
def percB (k : Nat) : Nat := k / 10

/-- `int(k * (1 - delta) + 1)` with `delta = 0.1`. -/
def percT (k : Nat) : Nat := 9 * k / 10 + 1

/-- The slice `window[perc_b:perc_t]` of the sorted window. -/
def trimmedSlice (k : Nat) (w : List ℚ) : List ℚ :=
  (w.drop (percB k)).take (percT k - percB k)

/-- Arithmetic mean of a rational list (`ndarray.mean()`). -/
def qmean (l : List ℚ) : ℚ := l.sum / l.length

/-- Population variance of a rational list (`ndarray.std()` squared;
numpy's default `ddof = 0`). -/
def qvar (l : List ℚ) : ℚ := (l.map (fun x => (x - qmean l) ^ 2)).sum / l.length

/-- Trimmed mean and trimmed variance of the window at loop offset `j`
(script lines 416-417 compute mean and standard deviation of
`window[perc_b:perc_t]`; we carry the variance, i.e. the squared standard
deviation, to stay within the rationals). -/
def rawStats (k : Nat) (ps : List ℚ) (j : Nat) : ℚ × ℚ :=
  let s := trimmedSlice k (windowIter k ps j)
  (qmean s, qvar s)

/-- The rolling statistics at absolute position `i` after the boundary
clamping of script lines 428-431: positions in `[center_beg, center_end)`
carry the window statistic computed there; positions before `center_beg`
copy the statistic of position `center_beg`; positions from `center_end`
on copy the statistic of position `center_end - 1`.  When the loop range is
empty (`center_end ≤ center_beg`, i.e. fewer than `k` trades) every position
keeps its `np.nan` initial value, modelled as `none`. -/
def statsAt (k : Nat) (ps : List ℚ) (i : Nat) : Option (ℚ × ℚ) :=
  let n := ps.length
  let c := centerBeg k
  let ce := n - c
  if c < ce then
    if i < c then some (rawStats k ps 0)
    else if i < ce then some (rawStats k ps (i - c))
    else some (rawStats k ps (ce - 1 - c))
  else none

/-! ## Outlier decision (script lines 433-437)

The script flags position `i` as an outlier when
`|price_i - mean_i| > 3 * std_i + y` and retains it when
`|price_i - mean_i| < 3 * std_i + y`; comparisons with the `np.nan`
statistics of an under-populated day are false.  With `d = |price - mean| - y`
and `v` the variance, the outlier test is equivalent to `0 < d ∧ 9v < d²`
and the retention test to `d < 0 ∨ d² < 9v`; the equivalence with the
square-root form is proved in `outB_iff_outlierCond` /
`retainB_iff_retainCond` below. -/

/-- Decidable form of `left_con > right_con` at position `i`. -/
def outB (k : Nat) (y : ℚ) (ps : List ℚ) (i : Nat) : Bool :=
  match statsAt k ps i with
  | none => false
  | some (m, v) =>
      let d := |ps.getD i 0 - m| - y
      decide (0 < d) && decide (9 * v < d ^ 2)

/-- Decidable form of `left_con < right_con` at position `i` (the retention
test building `not_outlier_sym`, script line 437). -/
def retainB (k : Nat) (y : ℚ) (ps : List ℚ) (i : Nat) : Bool :=
  match statsAt k ps i with
  | none => false
  | some (m, v) =>
      let d := |ps.getD i 0 - m| - y
      decide (d < 0) || decide (d ^ 2 < 9 * v)

/-- The square-root form of the outlier test, exactly as written in the
script: `|price - mean| > 3 * std + y` with `std = sqrt variance`. -/
def outlierCond (k : Nat) (y : ℚ) (ps : List ℚ) (i : Nat) : Prop :=
  ∃ m v : ℚ, statsAt k ps i = some (m, v) ∧
    3 * Real.sqrt (v : ℝ) + (y : ℝ) < |(ps.getD i 0 : ℝ) - (m : ℝ)|

/-- The square-root form of the retention test:
`|price - mean| < 3 * std + y`. -/
def retainCond (k : Nat) (y : ℚ) (ps : List ℚ) (i : Nat) : Prop :=
  ∃ m v : ℚ, statsAt k ps i = some (m, v) ∧
    |(ps.getD i 0 : ℝ) - (m : ℝ)| < 3 * Real.sqrt (v : ℝ) + (y : ℝ)

/-- `(left_con > right_con).sum()` for one day (script line 436). -/
def dayOutCount (k : Nat) (y : ℚ) (ps : List ℚ) : Nat :=
  ((List.range ps.length).filter (outB k y ps)).length

/-- `left_con < right_con` for one day (script line 437): the per-trade
retention mask. -/
def dayMask (k : Nat) (y : ℚ) (ps : List ℚ) : List Bool :=
  (List.range ps.length).map (retainB k y ps)

/-- One day of the outlier loop for one `(k, y)`.  When the day has at most
`center_beg` trades the script raises an uncaught `IndexError` at
`price_sym_day_mean.iloc[center_beg]` (line 428: positional index
`center_beg` on a series of length `≤ center_beg`); this is modelled as
`none`.  Otherwise it returns the day's outlier count and retention mask. -/
def dayRun (k : Nat) (y : ℚ) (ps : List ℚ) : Option (Nat × List Bool) :=
  if centerBeg k < ps.length then some (dayOutCount k y ps, dayMask k y ps)
  else none

/-! ## Per-symbol grid search (script lines 380-453)

`k_list = np.arange(41, 121, 20)` and `y_list = np.arange(0.02, 0.08, 0.02)`
give `k ∈ {41, 61, 81, 101}` and `y ∈ {0.02, 0.04, 0.06}`;
`np.meshgrid(k_list, y_list)` followed by `.ravel()` enumerates the pairs
with `y` outermost and `k` innermost. -/

/-- The `(k, y)` grid in the script's enumeration order. -/
def kyList : List (Nat × ℚ) :=
  [(41, 1/50), (61, 1/50), (81, 1/50), (101, 1/50),
   (41, 1/25), (61, 1/25), (81, 1/25), (101, 1/25),
   (41, 3/50), (61, 3/50), (81, 3/50), (101, 3/50)]

/-- All days of one symbol under one `(k, y)`: total outlier count
(`outlier_num_sym`) and concatenated retention mask (`not_outlier_sym`),
in date order; `none` if any day raises. -/
def daysRun (k : Nat) (y : ℚ) : List (List ℚ) → Option (Nat × List Bool)
  | [] => some (0, [])
  | d :: ds =>
      match dayRun k y d, daysRun k y ds with
      | some (c, m), some (c', m') => some (c + c', m ++ m')
      | _, _ => none

/-- The running-best fold of the grid search (script lines 439-451): the
current best `(k, y)` with its count and mask is replaced only when a later
grid point achieves a strictly greater outlier count. -/
def gridSearchAux (days : List (List ℚ)) :
    List (Nat × ℚ) → (Nat × ℚ) × Nat × List Bool → Option ((Nat × ℚ) × Nat × List Bool)
  | [], best => some best
  | g :: rest, best =>
      match daysRun g.1 g.2 days with
      | none => none
      | some (c, m) =>
          gridSearchAux days rest (if best.2.1 < c then (g, c, m) else best)

/-- The per-symbol grid search: the first grid point seeds the running best
(`count == 1` branch, script line 439), later points replace it only on a
strictly greater count (line 446). Returns the winning `(k, y)`, its total
outlier count, and the retained inlier mask `not_outlier_sym_f`. -/
def gridSearch (days : List (List ℚ)) : Option ((Nat × ℚ) × Nat × List Bool) :=
  match kyList with
  | [] => none
  | g :: rest =>
      match daysRun g.1 g.2 days with
      | none => none
      | some (c, m) => gridSearchAux days rest (g, c, m)

/-! ## Resampler (script lines 493-537)

Time stamps are natural numbers in a fixed unit per day (the script uses
pandas timestamps; the 2-second resampling bins of
`resample(freq, label='right', closed='right')` are anchored at midnight,
`t = 0`).  Each bin is the right-closed interval `(L - step, L]` labelled by
its right edge `L`, a multiple of `step`.  `pd.date_range(start, end, freq)`
is the day grid `start, start + step, …` up to `end`.  The left join
`df_extended_index.join(df_sym_day_resampled)` keeps exactly the grid rows
and matches a resampled row only when its label equals a grid timestamp;
resampled rows exist only for the contiguous bins from the bin of the
first observation to the bin of the last one. -/

/-- One aggregated observation (one row of `output_aggregate`): time of
day, median price, summed size. -/
structure Obs where
  t : Nat
  p : ℚ
  sz : ℤ
  deriving DecidableEq

/-- The right-closed bin label of time `t`: the least multiple of `step`
that is `≥ t` (pandas anchors sub-daily bins at midnight). -/
def binOf (step t : Nat) : Nat := step * ((t + step - 1) / step)

/-- `pd.date_range(start_datetime, end_datetime, freq)`:
`floor((e - s) / step) + 1` stamps from `s` in increments of `step`. -/
def grid (s e step : Nat) : List Nat :=
  (List.range ((e - s) / step + 1)).map (fun i => s + step * i)

/-- Membership of an observation in the bin labelled `g`. -/
def inBin (step g : Nat) (o : Obs) : Bool :=
  decide (o.t ≤ g) && decide (g < o.t + step)

/-- Whether grid stamp `g` carries a resampled row after the join: `g` must
be a bin label (a multiple of `step`) lying between the bin of the earliest
and the bin of the latest observation. -/
def onSpan (obs : List Obs) (step g : Nat) : Bool :=
  match (obs.map (·.t)).min?, (obs.map (·.t)).max? with
  | some tmin, some tmax =>
      decide (binOf step tmin ≤ g) && decide (g ≤ binOf step tmax) &&
        decide (g % step = 0)
  | _, _ => false

/-- The joined row at grid stamp `g` before gap-filling: on the resampled
span, price is the last observation of the bin (`resample(..).last()`,
`NaN` for an empty bin) and size is the bin's summed volume
(`resample(..).sum()`, `0` for an empty bin); off the span the join leaves
both missing. -/
def joinedRow (obs : List Obs) (step g : Nat) : Option ℚ × Option ℤ :=
  if onSpan obs step g then
    let b := obs.filter (inBin step g)
    (b.getLast?.map (·.p), some (b.map (·.sz)).sum)
  else (none, none)

/-- `df_resampled` before gap-filling: one row per grid stamp. -/
def joinedRows (obs : List Obs) (s e step : Nat) :
    List (Nat × Option ℚ × Option ℤ) :=
  (grid s e step).map (fun g => (g, joinedRow obs step g))

/-! ## Gap-filling of the price column (script lines 530-532)

`df_resampled['price'].interpolate(method='linear')` ignores the index and
fills, at each missing position that has a known value somewhere before it,
the linear interpolation between the nearest known neighbours (or, past the
last known value, that last value — pandas' default `limit_direction` is
forward).  Leading missing values are untouched.
`fillna(method='bfill')` then fills each remaining missing position with
the nearest known value after it. -/

/-- The nearest known value at a position `≤ m` (with its position). -/
def lastKnown (xs : List (Option ℚ)) : Nat → Option (Nat × ℚ)
  | 0 => match xs.getD 0 none with
         | some v => some (0, v)
         | none => none
  | m + 1 => match xs.getD (m + 1) none with
             | some v => some (m + 1, v)
             | none => lastKnown xs m

/-- Helper for `firstKnown`: scans a suffix, tracking absolute positions. -/
def firstKnownAux : List (Option ℚ) → Nat → Option (Nat × ℚ)
  | [], _ => none
  | none :: rest, i => firstKnownAux rest (i + 1)
  | some v :: _, i => some (i, v)

/-- The nearest known value at a position `≥ m` (with its position). -/
def firstKnown (xs : List (Option ℚ)) (m : Nat) : Option (Nat × ℚ) :=
  firstKnownAux (xs.drop m) m

/-- The nearest known value strictly before position `m`. -/
def prevKnown (xs : List (Option ℚ)) : Nat → Option (Nat × ℚ)
  | 0 => none
  | m + 1 => lastKnown xs m

/-- `Series.interpolate(method='linear')` at position `m`. -/
def interpAt (xs : List (Option ℚ)) (m : Nat) : Option ℚ :=
  match xs.getD m none with
  | some v => some v
  | none =>
      match prevKnown xs m, firstKnown xs m with
      | some (i, vi), some (j, vj) =>
          some (vi + (vj - vi) * ((m - i : Nat) : ℚ) / ((j - i : Nat) : ℚ))
      | some (_, vi), none => some vi
      | none, _ => none

/-- `Series.interpolate(method='linear')` on the whole column. -/
def interpolateCol (xs : List (Option ℚ)) : List (Option ℚ) :=
  (List.range xs.length).map (interpAt xs)

/-- `Series.fillna(method='bfill')` at position `m`. -/
def bfillAt (xs : List (Option ℚ)) (m : Nat) : Option ℚ :=
  match xs.getD m none with
  | some v => some v
  | none => (firstKnown xs m).map (·.2)

/-- `Series.fillna(method='bfill')` on the whole column. -/
def bfillCol (xs : List (Option ℚ)) : List (Option ℚ) :=
  (List.range xs.length).map (bfillAt xs)

/-- The two-phase gap fill of script lines 531-532: linear interpolation
first, backward fill second. -/
def gapFill (xs : List (Option ℚ)) : List (Option ℚ) :=
  bfillCol (interpolateCol xs)

/-- The resampled rows of one symbol-day after gap-filling: the price
column is gap-filled, the size column is exactly the joined one. -/
def resampleDay (obs : List Obs) (s e step : Nat) :
    List (Nat × Option ℚ × Option ℤ) :=
  let rows := joinedRows obs s e step
  List.zipWith (fun r q => (r.1, q, r.2.2)) rows (gapFill (rows.map (·.2.1)))

/-! ## Query loop and date narrowing (script lines 264-329)

Symbols and dates are opaque identifiers (naturals).  The trade source is a
function: `none` models a query that failed twice (logged, nothing else),
`some []` a successful query with zero rows, `some ps` the queried prices.
`tableOk` models whether the table `ctm_<date>` exists. -/

/-- The external trade source as seen by the loop. -/
structure QuerySpec where
  tableOk : Nat → Bool
  q : Nat → Nat → Option (List ℚ)

/-- One date of the inner query loop (script lines 283-320): on a missing
table or a successful zero-row query the date is flagged for removal; on a
failed query nothing happens beyond logging; otherwise the queried rows
`(symbol, date, price)` are appended to the output. -/
def processStep (qs : QuerySpec) (sym : Nat)
    (acc : List (Nat × Nat × ℚ) × List Nat) (d : Nat) :
    List (Nat × Nat × ℚ) × List Nat :=
  if qs.tableOk d then
    match qs.q sym d with
    | none => acc
    | some [] => (acc.1, acc.2 ++ [d])
    | some ps => (acc.1 ++ ps.map (fun p => (sym, d, p)), acc.2)
  else (acc.1, acc.2 ++ [d])

/-- The inner date loop for one symbol over the current date list: returns
the queried rows in order and the dates flagged for removal. -/
def processSym (qs : QuerySpec) (sym : Nat) (dates : List Nat) :
    List (Nat × Nat × ℚ) × List Nat :=
  dates.foldl (processStep qs sym) ([], [])

/-- One symbol of the outer loop: query all current dates, then narrow the
date list by the flagged dates (script line 322) and abort (`exit()`,
modelled as `none`) when no date remains (lines 324-327). -/
def runStep (qs : QuerySpec) (acc : Option (List (Nat × Nat × ℚ) × List Nat))
    (sym : Nat) : Option (List (Nat × Nat × ℚ) × List Nat) :=
  match acc with
  | none => none
  | some (out, dates) =>
      let r := processSym qs sym dates
      let dates2 := dates.filter (fun d => decide (d ∉ r.2))
      if dates2.isEmpty then none else some (out ++ r.1, dates2)

/-- The outer symbol loop. -/
def runSyms (qs : QuerySpec) (syms : List Nat) (dates0 : List Nat) :
    Option (List (Nat × Nat × ℚ) × List Nat) :=
  syms.foldl (runStep qs) (some ([], dates0))

/-- The whole extraction step: run all symbols, then keep only output rows
whose date is in the final narrowed date list (script line 329). -/
def runExtraction (qs : QuerySpec) (syms : List Nat) (dates0 : List Nat) :
    Option (List (Nat × Nat × ℚ) × List Nat) :=
  match runSyms qs syms dates0 with
  | none => none
  | some (out, dates) =>
      some (out.filter (fun r => decide (r.2.1 ∈ dates)), dates)

/-! ## Input validation (script lines 66-69 and 129-177)

Dates and times are compared by Python string comparison of their
zero-padded decimal forms, which coincides with numeric order; they are
modelled as naturals (`YYYYMMDD`, `HHMMSS`).  Each `some` code stands for
one distinct error message printed before `exit()`. -/

def minStartDate : Nat := 20030910
def maxEndDate : Nat := 20200331
def minStartTime : Nat := 93000
def maxEndTime : Nat := 160000

/-- The date-range check (script lines 131-149): `none` means the input is
accepted, `some c` that the `c`-th distinct error message is printed and
the process exits. -/
def validateDates (sd ed : Nat) : Option Nat :=
  if ed < sd then some 1
  else if sd < minStartDate ∧ ed < maxEndDate then some 2
  else if minStartDate < sd ∧ maxEndDate < ed then some 3
  else if sd < minStartDate ∧ maxEndDate < ed then some 4
  else none

/-- The time-range check (script lines 159-177), structurally identical to
the date check with its own four distinct messages. -/
def validateTimes (st et : Nat) : Option Nat :=
  if et < st then some 5
  else if st < minStartTime ∧ et < maxEndTime then some 6
  else if minStartTime < st ∧ maxEndTime < et then some 7
  else if st < minStartTime ∧ maxEndTime < et then some 8
  else none

/-- Default row used for positional access into resampled output. -/
def defaultRow : Nat × Option ℚ × Option ℤ := (0, none, none)

/-! ## General list-index helpers -/

theorem getD_map_range {α : Type} (f : Nat → α) (n i : Nat) (d : α)
    (hi : i < n) : ((List.range n).map f).getD i d = f i := by
  simp [List.getD_eq_getElem?_getD, List.getElem?_map, List.getElem?_range, hi]

/-! ## Claim C9: input validation -/

/-- C9, counterexample: the date check accepts `start < min` whenever
`end` equals the calendar maximum (the branch `start < min ∧ end < max`
fails on `end = max` and no other branch fires), and symmetrically accepts
`end > max` when `start` equals the minimum; the time check has the same
gaps.  So not every requested date outside the supported range is
rejected. -/
theorem c9_validation_gap :
    validateDates 20000101 20200331 = none ∧ 20000101 < minStartDate ∧
    validateDates 20030910 20210101 = none ∧ maxEndDate < 20210101 ∧
    validateTimes 90000 160000 = none ∧ 90000 < minStartTime := by
  decide

/-- C9, amended: validation rejects a start date (time) after the end date
(time), each via its own first branch with a distinct message, and rejects
an input exactly when start > end, or start < min with end < max, or
start > min with end > max, or start < min with end > max; in particular
`start < min, end = max` and `start = min, end > max` are accepted. -/
theorem c9_validation_characterization (sd ed st et : Nat) :
    ((validateDates sd ed).isSome = true ↔
      ed < sd ∨ (sd < minStartDate ∧ ed < maxEndDate) ∨
        (minStartDate < sd ∧ maxEndDate < ed) ∨
        (sd < minStartDate ∧ maxEndDate < ed)) ∧
    ((validateTimes st et).isSome = true ↔
      et < st ∨ (st < minStartTime ∧ et < maxEndTime) ∨
        (minStartTime < st ∧ maxEndTime < et) ∨
        (st < minStartTime ∧ maxEndTime < et)) ∧
    (ed < sd → validateDates sd ed = some 1) ∧
    (et < st → validateTimes st et = some 5) := by
  unfold validateDates validateTimes
  refine ⟨?_, ?_, ?_, ?_⟩ <;> split_ifs <;> simp_all

/-- C9, witness: the amended characterization applied to a reversed date
range yields the first distinct error. -/
theorem c9_validation_witness : validateDates 20200101 20100101 = some 1 :=
  (c9_validation_characterization 20200101 20100101 0 0).2.2.1 (by decide)

/-! ## Claim C7: days with fewer trades than half a window -/

/-- C7: a symbol-day with `n ≤ center_beg = (k-1)/2` trades (here one trade
against the smallest grid window `k = 41`, `center_beg = 20`) does not get
any classification: the script stops with an uncaught `IndexError` at
`price_sym_day_mean.iloc[center_beg]`, modelled by `dayRun = none`. -/
theorem c7_short_day_raises :
    dayRun 41 (1/50) [100] = none ∧ 1 ≤ centerBeg 41 := by decide

/-! ## Claim C4: gap-fill values -/

/-- C4: gap filling runs linear interpolation first and backward fill
second.  With known prices at positions 0 and 4 and gaps at 1, 2, 3, the
filled prices are exactly the linearly spaced values between the two known
ones; with a leading gap at position 0 and the first known price at
position 1, backward fill copies the value at position 1. -/
theorem c4_gap_fill_values (a b v : ℚ) :
    gapFill [some a, none, none, none, some b] =
      [some a, some (a + (b - a) * (1 / 4)), some (a + (b - a) * (2 / 4)),
       some (a + (b - a) * (3 / 4)), some b] ∧
    gapFill [none, some v] = [some v, some v] := by
  constructor
  · unfold gapFill bfillCol interpolateCol
    norm_num [List.range_succ, interpAt, prevKnown, bfillAt, lastKnown,
      firstKnown, firstKnownAux, List.getD]
    exact ⟨by ring, by ring, by ring⟩
  · unfold gapFill bfillCol interpolateCol
    norm_num [List.range_succ, interpAt, prevKnown, bfillAt, lastKnown,
      firstKnown, firstKnownAux, List.getD]

/-! ## Claim C8: date narrowing across symbols -/

theorem processStep_rem_mono (qs : QuerySpec) (sym : Nat)
    (acc : List (Nat × Nat × ℚ) × List Nat) (d0 d : Nat) (h : d ∈ acc.2) :
    d ∈ (processStep qs sym acc d0).2 := by
  unfold processStep
  split
  · cases hq : qs.q sym d0 with
    | none => exact h
    | some ps => cases ps <;> simp_all [List.mem_append]
  · simp [List.mem_append, h]

theorem processSym_flag (qs : QuerySpec) (sym d : Nat)
    (ht : qs.tableOk d = true) (hq : qs.q sym d = some []) :
    ∀ (dates : List Nat) (acc : List (Nat × Nat × ℚ) × List Nat),
      d ∈ acc.2 ∨ d ∈ dates →
      d ∈ (dates.foldl (processStep qs sym) acc).2 := by
  intro dates
  induction dates with
  | nil => intro acc h; simpa using h.resolve_right (by simp)
  | cons d0 rest ih =>
      intro acc h
      rw [List.foldl_cons]
      refine ih _ ?_
      rcases h with h | h
      · exact Or.inl (processStep_rem_mono qs sym acc d0 d h)
      · rcases List.mem_cons.mp h with rfl | h
        · refine Or.inl ?_
          unfold processStep
          rw [if_pos ht, hq]
          simp
        · exact Or.inr h

theorem foldl_runStep_none (qs : QuerySpec) (syms : List Nat) :
    syms.foldl (runStep qs) none = none := by
  induction syms with
  | nil => rfl
  | cons s rest ih => simpa [runStep] using ih

theorem runSyms_subset (qs : QuerySpec) :
    ∀ (syms : List Nat) (out : List (Nat × Nat × ℚ)) (dates : List Nat)
      (res : List (Nat × Nat × ℚ) × List Nat),
      syms.foldl (runStep qs) (some (out, dates)) = some res →
      res.2 ⊆ dates := by
  intro syms
  induction syms with
  | nil => intro out dates res h; cases h; exact fun _ hx => hx
  | cons s rest ih =>
      intro out dates res h
      rw [List.foldl_cons] at h
      rcases h2 : runStep qs (some (out, dates)) s with _ | r2
      · rw [h2, foldl_runStep_none] at h; cases h
      · rw [h2] at h
        have hsub : r2.2 ⊆ dates := by
          unfold runStep at h2
          simp only at h2
          split at h2
          · cases h2
          · cases h2; exact fun x hx => (List.mem_filter.mp hx).1
        exact fun x hx => hsub (ih r2.1 r2.2 res (by simpa using h) hx)

theorem runSyms_flag (qs : QuerySpec) (d : Nat) :
    ∀ (syms : List Nat) (out : List (Nat × Nat × ℚ)) (dates : List Nat)
      (res : List (Nat × Nat × ℚ) × List Nat) (s : Nat), s ∈ syms →
      qs.tableOk d = true → qs.q s d = some [] →
      syms.foldl (runStep qs) (some (out, dates)) = some res →
      d ∉ res.2 := by
  intro syms
  induction syms with
  | nil => intro _ _ _ _ hs; cases hs
  | cons s0 rest ih =>
      intro out dates res s hs ht hq h
      rw [List.foldl_cons] at h
      rcases h2 : runStep qs (some (out, dates)) s0 with _ | r2
      · rw [h2, foldl_runStep_none] at h; cases h
      · rw [h2] at h
        rcases List.mem_cons.mp hs with rfl | hs
        · have hd2 : d ∉ r2.2 := by
            unfold runStep at h2
            simp only at h2
            split at h2
            · cases h2
            · cases h2
              intro hmem
              have := List.mem_filter.mp hmem
              rcases this with ⟨hmem1, hdec⟩
              exact (of_decide_eq_true hdec) (processSym_flag qs s d ht hq dates ([], []) (Or.inr hmem1))
          intro hmem
          exact hd2 (runSyms_subset qs rest r2.1 r2.2 res (by simpa using h) hmem)
        · exact ih r2.1 r2.2 res s hs ht hq (by simpa using h)

/-- C8: after the run, the retained queried output has no row dated outside
the final narrowed date list (for any symbol, including symbols processed
before a date was flagged), and any date on which some queried symbol's
query succeeded with zero rows is absent from the final date list. -/
theorem c8_date_narrowing (qs : QuerySpec) (syms dates0 : List Nat)
    (out : List (Nat × Nat × ℚ)) (dates : List Nat)
    (h : runExtraction qs syms dates0 = some (out, dates)) :
    (∀ r ∈ out, r.2.1 ∈ dates) ∧
    (∀ s ∈ syms, ∀ d, qs.tableOk d = true → qs.q s d = some [] →
      d ∉ dates) := by
  unfold runExtraction at h
  rcases hr : runSyms qs syms dates0 with _ | res
  · rw [hr] at h; cases h
  · rw [hr] at h
    obtain ⟨out0, dates0'⟩ := res
    simp only at h
    injection h with h1
    injection h1 with hout hdates
    subst hout; subst hdates
    constructor
    · intro r hr2
      have := List.mem_filter.mp hr2
      exact of_decide_eq_true this.2
    · intro s hs d ht hq
      exact runSyms_flag qs d syms [] dates0 (out0, dates0') s hs ht hq
        (by simpa [runSyms] using hr)

/-- C8, witness: symbol 1 has zero trades on date 20; the run drops date
20 for both symbols, and symbol 0's already-queried row for date 20 is
removed from the retained output. -/
theorem c8_witness :
    (∀ r ∈ [((0:Nat), (10:Nat), (5:ℚ)), (1, 10, 5)], r.2.1 ∈ [10]) ∧
    (∀ s ∈ [0, 1], ∀ d,
      (QuerySpec.mk (fun _ => true)
        (fun s d => if s = 1 ∧ d = 20 then some [] else some [5])).tableOk d
          = true →
      (QuerySpec.mk (fun _ => true)
        (fun s d => if s = 1 ∧ d = 20 then some [] else some [5])).q s d
          = some [] →
      d ∉ [10]) :=
  c8_date_narrowing
    (QuerySpec.mk (fun _ => true)
      (fun s d => if s = 1 ∧ d = 20 then some [] else some [5]))
    [0, 1] [10, 20] [(0, 10, 5), (1, 10, 5)] [10] (by decide)


/-! ## Claim C2: the outlier / inlier decision -/

theorem sqrt_nine_mul (w : ℝ) : Real.sqrt (9 * w) = 3 * Real.sqrt w := by
  rw [show (9:ℝ) = 3 ^ 2 by norm_num, Real.sqrt_mul (by positivity) w,
    Real.sqrt_sq (by norm_num)]

theorem real_out_iff (w e : ℝ) :
    3 * Real.sqrt w < e ↔ 0 < e ∧ 9 * w < e ^ 2 := by
  rw [← sqrt_nine_mul w]
  constructor
  · intro h
    have he : 0 < e := lt_of_le_of_lt (Real.sqrt_nonneg _) h
    exact ⟨he, (Real.sqrt_lt' he).mp h⟩
  · rintro ⟨he, h2⟩
    exact (Real.sqrt_lt' he).mpr h2

theorem real_retain_iff (w e : ℝ) :
    e < 3 * Real.sqrt w ↔ e < 0 ∨ e ^ 2 < 9 * w := by
  rw [← sqrt_nine_mul w]
  constructor
  · intro h
    rcases lt_or_le e 0 with he | he
    · exact Or.inl he
    · exact Or.inr ((Real.lt_sqrt he).mp h)
  · rintro (he | h2)
    · exact lt_of_lt_of_le he (Real.sqrt_nonneg _)
    · rcases lt_or_le e 0 with he | he
      · exact lt_of_lt_of_le he (Real.sqrt_nonneg _)
      · exact (Real.lt_sqrt he).mpr h2

theorem outB_iff_outlierCond (k : Nat) (y : ℚ) (ps : List ℚ) (i : Nat) :
    outB k y ps i = true ↔ outlierCond k y ps i := by
  unfold outB outlierCond
  rcases h : statsAt k ps i with _ | ⟨m, v⟩
  · simp
  · simp only [Bool.and_eq_true, decide_eq_true_eq, Option.some.injEq,
      Prod.mk.injEq]
    constructor
    · rintro ⟨h1, h2⟩
      refine ⟨m, v, ⟨rfl, rfl⟩, ?_⟩
      have h3 : 3 * Real.sqrt (v:ℝ) < ((|ps.getD i 0 - m| - y : ℚ) : ℝ) :=
        (real_out_iff _ _).mpr ⟨by exact_mod_cast h1, by exact_mod_cast h2⟩
      push_cast at h3
      linarith [h3]
    · rintro ⟨m', v', ⟨rfl, rfl⟩, hlt⟩
      have h3 : 3 * Real.sqrt (v:ℝ) < ((|ps.getD i 0 - m| - y : ℚ) : ℝ) := by
        push_cast
        linarith [hlt]
      have := (real_out_iff ((v:ℝ)) _).mp h3
      exact ⟨by exact_mod_cast this.1, by exact_mod_cast this.2⟩

theorem retainB_iff_retainCond (k : Nat) (y : ℚ) (ps : List ℚ) (i : Nat) :
    retainB k y ps i = true ↔ retainCond k y ps i := by
  unfold retainB retainCond
  rcases h : statsAt k ps i with _ | ⟨m, v⟩
  · simp
  · simp only [Bool.or_eq_true, decide_eq_true_eq, Option.some.injEq,
      Prod.mk.injEq]
    constructor
    · intro h1
      refine ⟨m, v, ⟨rfl, rfl⟩, ?_⟩
      have h3 : ((|ps.getD i 0 - m| - y : ℚ) : ℝ) < 3 * Real.sqrt (v:ℝ) :=
        (real_retain_iff _ _).mpr (by
          rcases h1 with h1 | h1
          · exact Or.inl (by exact_mod_cast h1)
          · exact Or.inr (by exact_mod_cast h1))
      push_cast at h3
      linarith [h3]
    · rintro ⟨m', v', ⟨rfl, rfl⟩, hlt⟩
      have h3 : ((|ps.getD i 0 - m| - y : ℚ) : ℝ) < 3 * Real.sqrt (v:ℝ) := by
        push_cast
        linarith [hlt]
      have := (real_retain_iff ((v:ℝ)) _).mp h3
      rcases this with h1 | h1
      · exact Or.inl (by exact_mod_cast h1)
      · exact Or.inr (by exact_mod_cast h1)

def cexPrices : List ℚ := List.replicate 40 100 ++ [100 + 1/50]

theorem cexPrices_length : cexPrices.length = 41 := by simp [cexPrices]

theorem cexPrices_sorted : List.Pairwise (· ≤ ·) cexPrices := by
  unfold cexPrices
  apply List.pairwise_append.mpr
  refine ⟨List.pairwise_replicate.mpr (Or.inr le_rfl),
    List.pairwise_singleton _ _, ?_⟩
  intro x hx y hy
  rcases List.eq_of_mem_replicate hx with rfl
  rcases List.mem_singleton.mp hy with rfl
  norm_num

theorem cex_window0 : windowIter 41 cexPrices 0 = cexPrices := by
  show List.insertionSort (· ≤ ·) (cexPrices.take 41) = cexPrices
  rw [← cexPrices_length, List.take_length]
  exact List.Sorted.insertionSort_eq cexPrices_sorted

theorem cex_trimmed :
    trimmedSlice 41 (windowIter 41 cexPrices 0) = List.replicate 33 100 := by
  rw [cex_window0]
  unfold trimmedSlice percB percT cexPrices
  simp only [show (41:Nat)/10 = 4 from rfl, show 9*41/10+1 = 37 from rfl,
    show (37:Nat) - 4 = 33 from rfl]
  rw [show (40:Nat) = 4 + 36 by norm_num, List.replicate_add,
    List.append_assoc,
    show List.drop 4 ((List.replicate 4 (100:ℚ)) ++
      (List.replicate 36 (100:ℚ) ++ [100 + 1/50])) =
      List.replicate 36 (100:ℚ) ++ [100 + 1/50] from by
        have := List.drop_left (List.replicate 4 (100:ℚ))
          (List.replicate 36 (100:ℚ) ++ [100 + 1/50])
        simpa using this,
    show (36:Nat) = 33 + 3 by norm_num, List.replicate_add, List.append_assoc]
  have := List.take_left (List.replicate 33 (100:ℚ))
    (List.replicate 3 (100:ℚ) ++ [100 + 1/50])
  simpa using this

theorem qmean_replicate (n : Nat) (c : ℚ) (hn : n ≠ 0) :
    qmean (List.replicate n c) = c := by
  unfold qmean
  rw [List.sum_replicate, List.length_replicate, nsmul_eq_mul]
  field_simp

theorem qvar_replicate (n : Nat) (c : ℚ) (hn : n ≠ 0) :
    qvar (List.replicate n c) = 0 := by
  unfold qvar
  rw [qmean_replicate n c hn, List.map_replicate]
  norm_num

theorem cex_rawStats : rawStats 41 cexPrices 0 = (100, 0) := by
  unfold rawStats
  simp only [cex_trimmed]
  rw [qmean_replicate 33 100 (by norm_num), qvar_replicate 33 100 (by norm_num)]

theorem cex_statsAt (i : Nat) : statsAt 41 cexPrices i = some (100, 0) := by
  have hc : centerBeg 41 = 20 := rfl
  unfold statsAt
  simp only [cexPrices_length, hc]
  norm_num
  split_ifs with h1 h2
  · rw [cex_rawStats]
  · rw [show i - 20 = 0 from by omega, cex_rawStats]
  · rw [cex_rawStats]

theorem cex_getD_lt (i : Nat) (hi : i < 40) : cexPrices.getD i 0 = 100 := by
  unfold cexPrices
  rw [List.getD_append _ _ _ _ (by simpa using hi),
    List.getD_eq_getElem?_getD, List.getElem?_replicate]
  simp [hi]

theorem cex_getD_40 : cexPrices.getD 40 0 = 100 + 1/50 := by
  unfold cexPrices
  rw [List.getD_append_right _ _ _ _ (by simp)]
  simp

theorem cex_abs : |(100 + 1/50 : ℚ) - 100| = 1/50 := by
  rw [show (100 + 1/50 : ℚ) - 100 = 1/50 by ring]
  exact abs_of_pos (by norm_num)

theorem cex_outB (i : Nat) (hi : i < 41) :
    outB 41 (1/50) cexPrices i = false := by
  unfold outB
  rw [cex_statsAt i]
  rcases lt_or_ge i 40 with h | h
  · rw [cex_getD_lt i h]
    norm_num
  · rw [show i = 40 by omega, cex_getD_40]
    show (decide ((0:ℚ) < |(100 + 1/50 : ℚ) - 100| - 1/50) &&
      decide ((9:ℚ) * 0 < (|(100 + 1/50 : ℚ) - 100| - 1/50) ^ 2)) = false
    rw [cex_abs]
    norm_num

theorem cex_retainB_lt (i : Nat) (hi : i < 40) :
    retainB 41 (1/50) cexPrices i = true := by
  unfold retainB
  rw [cex_statsAt i, cex_getD_lt i hi]
  norm_num

theorem cex_retainB_40 : retainB 41 (1/50) cexPrices 40 = false := by
  unfold retainB
  rw [cex_statsAt 40, cex_getD_40]
  show (decide (|(100 + 1/50 : ℚ) - 100| - 1/50 < 0) ||
    decide ((|(100 + 1/50 : ℚ) - 100| - 1/50) ^ 2 < 9 * 0)) = false
  rw [cex_abs]
  norm_num

theorem cex_count : dayOutCount 41 (1/50) cexPrices = 0 := by
  unfold dayOutCount
  rw [List.filter_eq_nil_iff.mpr ?_]
  · rfl
  · intro a ha
    have ha41 : a < 41 := by
      have := List.mem_range.mp ha
      rwa [cexPrices_length] at this
    rw [cex_outB a ha41]
    simp

theorem cex_mask_eq :
    dayMask 41 (1/50) cexPrices = List.replicate 40 true ++ [false] := by
  unfold dayMask
  rw [cexPrices_length, List.range_succ, List.map_append]
  congr 1
  · apply List.eq_replicate_iff.mpr
    refine ⟨by simp, ?_⟩
    intro b hb
    rcases List.mem_map.mp hb with ⟨i, hi, rfl⟩
    exact cex_retainB_lt i (List.mem_range.mp hi)
  · show List.map (retainB 41 (1/50) cexPrices) [40] = [false]
    simp only [List.map_cons, List.map_nil]
    rw [cex_retainB_40]

theorem cex_dayRun :
    dayRun 41 (1/50) cexPrices
      = some (0, List.replicate 40 true ++ [false]) := by
  unfold dayRun
  rw [cexPrices_length, if_pos (by norm_num [centerBeg]), cex_count,
    cex_mask_eq]

/-- C2, amended: for every trade of a day the filter completes on, the
trade is counted as an outlier exactly when
`|price - local_center| > 3*local_spread + y` and is retained in the
filtered output exactly when `|price - local_center| < 3*local_spread + y`
(line 437 uses a strict `<`); a trade at exact equality is therefore
neither counted as an outlier nor retained — it is silently dropped. -/
theorem c2_outlier_decision (k : Nat) (y : ℚ) (ps : List ℚ) (cnt : Nat)
    (mask : List Bool) (h : dayRun k y ps = some (cnt, mask)) (i : Nat)
    (hi : i < ps.length) :
    (mask.getD i false = true ↔ retainCond k y ps i) ∧
    (outB k y ps i = true ↔ outlierCond k y ps i) ∧
    cnt = ((List.range ps.length).filter (outB k y ps)).length := by
  unfold dayRun at h
  split at h
  · injection h with h1
    injection h1 with hcnt hmask
    subst hcnt; subst hmask
    refine ⟨?_, outB_iff_outlierCond k y ps i, rfl⟩
    rw [show (dayMask k y ps).getD i false = retainB k y ps i from by
      unfold dayMask; exact getD_map_range _ _ _ _ hi]
    exact retainB_iff_retainCond k y ps i
  · cases h

/-- C2, counterexample: a day of 40 trades at 100 and one at 100 + 0.02
under `(k, y) = (41, 0.02)` has local center 100 and local spread 0
everywhere, so the last trade sits exactly on the band edge
`|price - center| = 3*spread + y`.  It is not counted as an outlier (the
day's count is 0) yet its retention mask entry is `false`: it is not an
inlier retained in the filtered output, refuting the claimed dichotomy. -/
theorem c2_counterexample :
    dayRun 41 (1/50) cexPrices
        = some (0, List.replicate 40 true ++ [false]) ∧
    (List.replicate 40 true ++ [false]).getD 40 false = false ∧
    statsAt 41 cexPrices 40 = some (100, 0) ∧
    |(cexPrices.getD 40 0 : ℝ) - ((100:ℚ) : ℝ)|
      = 3 * Real.sqrt ((0:ℚ) : ℝ) + ((1/50 : ℚ) : ℝ) := by
  refine ⟨cex_dayRun, by decide, cex_statsAt 40, ?_⟩
  rw [cex_getD_40]
  push_cast
  rw [Real.sqrt_zero]
  norm_num

/-- C2, witness: the amended decision theorem applied to the concrete
boundary day at the boundary trade. -/
theorem c2_witness :
    ((List.replicate 40 true ++ [false]).getD 40 false = true ↔
      retainCond 41 (1/50) cexPrices 40) ∧
    (outB 41 (1/50) cexPrices 40 = true ↔
      outlierCond 41 (1/50) cexPrices 40) ∧
    0 = ((List.range cexPrices.length).filter
        (outB 41 (1/50) cexPrices)).length :=
  c2_outlier_decision 41 (1/50) cexPrices 0
    (List.replicate 40 true ++ [false]) cex_dayRun 40
    (by rw [cexPrices_length]; norm_num)

/-! ## Claim C5: the grid-search selection rule -/

theorem gridSearchAux_spec (days : List (List ℚ)) :
    ∀ (l : List (Nat × ℚ)) (best res : (Nat × ℚ) × Nat × List Bool),
      gridSearchAux days l best = some res →
      daysRun best.1.1 best.1.2 days = some (best.2.1, best.2.2) →
      daysRun res.1.1 res.1.2 days = some (res.2.1, res.2.2) ∧
      best.2.1 ≤ res.2.1 ∧
      (∀ g' ∈ l, ∀ c' m', daysRun g'.1 g'.2 days = some (c', m') →
        c' ≤ res.2.1) ∧
      (res = best ∨ ∃ l1 l2, l = l1 ++ res.1 :: l2 ∧ best.2.1 < res.2.1 ∧
        ∀ g' ∈ l1, ∀ c' m', daysRun g'.1 g'.2 days = some (c', m') →
          c' < res.2.1) := by
  intro l
  induction l with
  | nil =>
      intro best res h hbest
      injection h with h
      subst h
      exact ⟨hbest, le_refl _, by simp, Or.inl rfl⟩
  | cons g rest ih =>
      intro best res h hbest
      unfold gridSearchAux at h
      rcases hg : daysRun g.1 g.2 days with _ | cm
      · rw [hg] at h; cases h
      · obtain ⟨c, m⟩ := cm
        rw [hg] at h
        have h' : gridSearchAux days rest
            (if best.2.1 < c then (g, c, m) else best) = some res := h
        by_cases hlt : best.2.1 < c
        · rw [if_pos hlt] at h'
          obtain ⟨h1, h2, h3, h4⟩ := ih ((g, c, m)) res h' hg
          refine ⟨h1, le_trans (le_of_lt hlt) h2, ?_, ?_⟩
          · intro g' hg' c' m' hd
            rcases List.mem_cons.mp hg' with rfl | hg'
            · rw [hg] at hd
              injection hd with hd
              injection hd with hc _
              exact hc ▸ h2
            · exact h3 g' hg' c' m' hd
          · rcases h4 with rfl | ⟨l1, l2, hsplit, hgt, hearly⟩
            · exact Or.inr ⟨[], rest, by simp, hlt, by simp⟩
            · refine Or.inr ⟨g :: l1, l2, by rw [List.cons_append, hsplit],
                lt_of_le_of_lt (le_of_lt hlt) hgt, ?_⟩
              intro g' hg' c' m' hd
              rcases List.mem_cons.mp hg' with rfl | hg'
              · rw [hg] at hd
                injection hd with hd
                injection hd with hc _
                exact hc ▸ hgt
              · exact hearly g' hg' c' m' hd
        · rw [if_neg hlt] at h'
          obtain ⟨h1, h2, h3, h4⟩ := ih best res h' hbest
          push_neg at hlt
          refine ⟨h1, h2, ?_, ?_⟩
          · intro g' hg' c' m' hd
            rcases List.mem_cons.mp hg' with rfl | hg'
            · rw [hg] at hd
              injection hd with hd
              injection hd with hc _
              exact hc ▸ le_trans hlt h2
            · exact h3 g' hg' c' m' hd
          · rcases h4 with rfl | ⟨l1, l2, hsplit, hgt, hearly⟩
            · exact Or.inl rfl
            · refine Or.inr ⟨g :: l1, l2, by rw [List.cons_append, hsplit],
                hgt, ?_⟩
              intro g' hg' c' m' hd
              rcases List.mem_cons.mp hg' with rfl | hg'
              · rw [hg] at hd
                injection hd with hd
                injection hd with hc _
                exact hc ▸ lt_of_le_of_lt hlt hgt
              · exact hearly g' hg' c' m' hd

/-- C5: whenever the grid search completes, the selected `(k, y)` is in
the grid, carries exactly its own total outlier count and concatenated
inlier mask, its count is maximal over the whole grid, and every grid
point enumerated strictly earlier has a strictly smaller count (the first
point seeds the running best and is replaced only by a strictly greater
count, so exact ties keep the earliest grid point).  As the search is a
pure function of its input, rerunning it on identical input yields the
identical choice and mask. -/
theorem c5_grid_selection (days : List (List ℚ)) (g : Nat × ℚ) (c : Nat)
    (mask : List Bool) (h : gridSearch days = some (g, c, mask)) :
    g ∈ kyList ∧
    daysRun g.1 g.2 days = some (c, mask) ∧
    (∀ g' ∈ kyList, ∀ c' m', daysRun g'.1 g'.2 days = some (c', m') →
      c' ≤ c) ∧
    ∃ idx : Nat, kyList[idx]? = some g ∧
      ∀ j : Nat, j < idx → ∀ (g' : Nat × ℚ) (c' : Nat) (m' : List Bool),
        kyList[j]? = some g' →
        daysRun g'.1 g'.2 days = some (c', m') → c' < c := by
  have h' : (match daysRun (41:Nat) ((1:ℚ)/50) days with
      | none => none
      | some (c0, m0) =>
          gridSearchAux days kyList.tail (((41:Nat), (1:ℚ)/50), c0, m0))
      = some (g, c, mask) := h
  rcases hg0 : daysRun (41:Nat) ((1:ℚ)/50) days with _ | cm0
  · rw [hg0] at h'; cases h'
  · obtain ⟨c0, m0⟩ := cm0
    rw [hg0] at h'
    have h'' : gridSearchAux days kyList.tail
        (((41:Nat), (1:ℚ)/50), c0, m0) = some (g, c, mask) := h'
    obtain ⟨H1, H2, H3, H4⟩ := gridSearchAux_spec days kyList.tail
      (((41:Nat), (1:ℚ)/50), c0, m0) (g, c, mask) h'' hg0
    have hmem : g ∈ kyList := by
      rcases H4 with heq | ⟨l1, l2, hsplit, _, _⟩
      · have : g = ((41:Nat), (1:ℚ)/50) := congrArg Prod.fst heq
        rw [this]
        exact List.mem_cons_self _ _
      · have : g ∈ kyList.tail := by
          rw [hsplit]
          exact List.mem_append_right l1 (List.mem_cons_self _ _)
        exact List.mem_of_mem_tail this
    refine ⟨hmem, H1, ?_, ?_⟩
    · intro g' hg' c' m' hd
      rcases List.mem_cons.mp hg' with rfl | hg'
      · have hd' : daysRun (41:Nat) ((1:ℚ)/50) days = some (c', m') := hd
        rw [hg0] at hd'
        injection hd' with hd'
        injection hd' with hc _
        exact hc ▸ H2
      · exact H3 g' hg' c' m' hd
    · rcases H4 with heq | ⟨l1, l2, hsplit, hgt, hearly⟩
      · have hg41 : g = ((41:Nat), (1:ℚ)/50) := congrArg Prod.fst heq
        subst hg41
        refine ⟨0, rfl, ?_⟩
        intro j hj
        exact absurd hj (Nat.not_lt_zero j)
      · refine ⟨l1.length + 1, ?_, ?_⟩
        · have hstep : kyList[l1.length + 1]?
              = (l1 ++ (g, c, mask).1 :: l2)[l1.length]? := by
            rw [← hsplit]
            exact List.getElem?_cons_succ
          rw [hstep, List.getElem?_append_right (le_refl _), Nat.sub_self,
            List.getElem?_cons_zero]
        · intro j hj g' c' m' hget hd
          match j, hj with
          | 0, _ =>
              have hg' : g' = ((41:Nat), (1:ℚ)/50) := by
                have h0 : kyList[(0:Nat)]?
                    = some (((41:Nat), (1:ℚ)/50)) := rfl
                rw [h0] at hget
                injection hget with hget
                exact hget.symm
              subst hg'
              have hd' : daysRun (41:Nat) ((1:ℚ)/50) days
                  = some (c', m') := hd
              rw [hg0] at hd'
              injection hd' with hd'
              injection hd' with hc _
              exact hc ▸ hgt
          | j + 1, hj =>
              have hj' : j < l1.length := by omega
              have hget' : l1[j]? = some g' := by
                have h1 : kyList[j + 1]?
                    = (l1 ++ (g, c, mask).1 :: l2)[j]? := by
                  rw [← hsplit]
                  exact List.getElem?_cons_succ
                rw [h1, List.getElem?_append, if_pos hj'] at hget
                exact hget
              have hmem' : g' ∈ l1 := by
                rcases List.getElem?_eq_some.mp hget' with ⟨hlt, hval⟩
                exact hval ▸ List.getElem_mem hlt
              exact hearly g' hmem' c' m' hd

/-- C5, witness: on a symbol with no remaining days every grid point
counts zero outliers, and the search returns the first-enumerated pair
`(41, 0.02)`. -/
theorem c5_witness :
    ((41:Nat), (1:ℚ)/50) ∈ kyList ∧
    daysRun 41 (1/50) [] = some (0, []) ∧
    (∀ g' ∈ kyList, ∀ c' m', daysRun g'.1 g'.2 [] = some (c', m') →
      c' ≤ 0) ∧
    ∃ idx : Nat, kyList[idx]? = some ((41:Nat), (1:ℚ)/50) ∧
      ∀ j : Nat, j < idx → ∀ (g' : Nat × ℚ) (c' : Nat) (m' : List Bool),
        kyList[j]? = some g' →
        daysRun g'.1 g'.2 [] = some (c', m') → c' < 0 :=
  c5_grid_selection [] ((41:Nat), (1:ℚ)/50) 0 [] rfl

/-! ## Claim C6: incremental window maintenance vs. sorting from scratch -/

theorem searchsorted_hit (w : List ℚ) (a : ℚ) (hs : List.Sorted (· ≤ ·) w)
    (ha : a ∈ w) : w[searchsortedLeft w a]? = some a := by
  induction w with
  | nil => cases ha
  | cons b t ih =>
      unfold searchsortedLeft
      by_cases hba : b < a
      · rw [List.takeWhile_cons_of_pos (by simpa using hba)]
        have hat : a ∈ t := by
          rcases List.mem_cons.mp ha with rfl | hat
          · exact absurd hba (lt_irrefl a)
          · exact hat
        have := ih (List.sorted_cons.mp hs).2 hat
        simpa [searchsortedLeft, List.getElem?_cons_succ] using this
      · rw [List.takeWhile_cons_of_neg (by simpa using hba)]
        have hab : a = b := by
          rcases List.mem_cons.mp ha with rfl | hat
          · rfl
          · exact le_antisymm (not_lt.mp hba) ((List.sorted_cons.mp hs).1 a hat)
        simp [hab]

theorem set_perm_of_getElem? (w : List ℚ) (i : Nat) (x a : ℚ)
    (h : w[i]? = some a) :
    (w.set i x).Perm (x :: w.eraseIdx i) ∧ w.Perm (a :: w.eraseIdx i) := by
  rcases List.getElem?_eq_some.mp h with ⟨hi, hval⟩
  constructor
  · rw [List.set_eq_take_append_cons_drop, if_pos hi,
      List.eraseIdx_eq_take_drop_succ]
    exact List.perm_middle
  · conv_lhs => rw [← List.take_append_drop i w,
      List.drop_eq_getElem_cons hi, hval]
    rw [List.eraseIdx_eq_take_drop_succ]
    exact List.perm_middle

/-- C6: for a day with at least `k = 2c+1` trades, the incremental window
update of lines 421-423 — locate the outgoing price by `np.searchsorted`,
overwrite it with the incoming price, re-sort — maintained from the sorted
initial window equals, at every in-range position (window offset `j`,
absolute position `i = center_beg + j` with `i ∈ [center_beg,
center_end)`), the sorted `k`-price slice starting at `j`, i.e. sorting
from scratch at each position. -/
theorem c6_sliding_window (k c j : Nat) (ps : List ℚ) (hk : k = 2 * c + 1)
    (hj : j + k ≤ ps.length) :
    windowIter k ps j = List.insertionSort (· ≤ ·) ((ps.drop j).take k) := by
  subst hk
  induction j with
  | zero => simp [windowIter]
  | succ j ih =>
      have hj' : j + (2 * c + 1) ≤ ps.length := by omega
      have IH := ih hj'
      have hcb : centerBeg (2 * c + 1) = c := by
        unfold centerBeg
        omega
      have hjn : j < ps.length := by omega
      have hjkn : j + (2 * c + 1) < ps.length := by omega
      have hidx : j + 2 * centerBeg (2 * c + 1) + 1 = j + (2 * c + 1) := by
        rw [hcb]
        omega
      show slideStep (windowIter (2 * c + 1) ps j) (ps.getD j 0)
        (ps.getD (j + 2 * centerBeg (2 * c + 1) + 1) 0)
        = List.insertionSort (· ≤ ·) ((ps.drop (j + 1)).take (2 * c + 1))
      rw [IH, hidx]
      have ha : ps.getD j 0 = ps[j] := by
        rw [List.getD_eq_getElem?_getD, List.getElem?_eq_getElem hjn]
        rfl
      have hx : ps.getD (j + (2 * c + 1)) 0 = ps[j + (2 * c + 1)] := by
        rw [List.getD_eq_getElem?_getD, List.getElem?_eq_getElem hjkn]
        rfl
      set w := List.insertionSort (· ≤ ·) ((ps.drop j).take (2 * c + 1))
        with hw
      have hws : List.Sorted (· ≤ ·) w := List.sorted_insertionSort _ _
      have hwperm : w.Perm ((ps.drop j).take (2 * c + 1)) :=
        List.perm_insertionSort _ _
      have hslice : (ps.drop j).take (2 * c + 1)
          = ps[j] :: ((ps.drop (j + 1)).take (2 * c)) := by
        rw [List.drop_eq_getElem_cons hjn]
        rfl
      have hslice' : (ps.drop (j + 1)).take (2 * c + 1)
          = ((ps.drop (j + 1)).take (2 * c)) ++ [ps[j + (2 * c + 1)]] := by
        rw [List.take_succ]
        congr 1
        rw [List.getElem?_drop,
          show j + 1 + 2 * c = j + (2 * c + 1) from by omega,
          List.getElem?_eq_getElem hjkn]
        rfl
      have hmem : ps[j] ∈ w := by
        rw [hwperm.mem_iff, hslice]
        exact List.mem_cons_self _ _
      have hhit : w[searchsortedLeft w ps[j]]? = some ps[j] :=
        searchsorted_hit w ps[j] hws hmem
      obtain ⟨hp1, hp2⟩ := set_perm_of_getElem? w _ (ps[j + (2 * c + 1)])
        (ps[j]) hhit
      have herase : (w.eraseIdx (searchsortedLeft w ps[j])).Perm
          ((ps.drop (j + 1)).take (2 * c)) := by
        have h1 : (ps[j] :: w.eraseIdx (searchsortedLeft w ps[j])).Perm
            (ps[j] :: (ps.drop (j + 1)).take (2 * c)) := by
          refine hp2.symm.trans ?_
          rw [← hslice]
          exact hwperm
        exact h1.cons_inv
      have hsetperm : (w.set (searchsortedLeft w ps[j])
          (ps[j + (2 * c + 1)])).Perm
          ((ps.drop (j + 1)).take (2 * c + 1)) := by
        rw [hslice']
        exact hp1.trans ((herase.cons _).trans
          (List.perm_append_singleton _ _).symm)
      unfold slideStep
      rw [ha, hx]
      refine List.eq_of_perm_of_sorted ?_ (List.sorted_insertionSort _ _)
        (List.sorted_insertionSort _ _)
      exact (List.perm_insertionSort _ _).trans
        (hsetperm.trans (List.perm_insertionSort _ _).symm)

/-- C6, witness: one slide step on a concrete five-price day. -/
theorem c6_witness :
    windowIter 3 [3, 1, 2, 5, 4] 1
      = List.insertionSort (· ≤ ·)
          ((([3, 1, 2, 5, 4] : List ℚ).drop 1).take 3) :=
  c6_sliding_window 3 1 1 [3, 1, 2, 5, 4] (by norm_num) (by simp)

/-! ## Claims C1, C3, C10: the resampler -/

theorem binOf_ge (step t : Nat) (hstep : 0 < step) : t ≤ binOf step t := by
  unfold binOf
  have h1 := Nat.div_add_mod (t + step - 1) step
  have h2 := Nat.mod_lt (t + step - 1) hstep
  omega

theorem binOf_lt_add (step t : Nat) (hstep : 0 < step) :
    binOf step t < t + step := by
  unfold binOf
  have h1 := Nat.div_add_mod (t + step - 1) step
  have h2 := Nat.mod_lt (t + step - 1) hstep
  omega

theorem binOf_mono (step t t' : Nat) (h : t ≤ t') :
    binOf step t ≤ binOf step t' := by
  unfold binOf
  exact Nat.mul_le_mul_left step (Nat.div_le_div_right (by omega))

theorem binOf_mod (step t : Nat) : binOf step t % step = 0 :=
  Nat.mul_mod_right step _

theorem binOf_multiple (step g : Nat) (hstep : 0 < step) (hg : g % step = 0) :
    binOf step g = g := by
  obtain ⟨q, rfl⟩ := Nat.dvd_of_mod_eq_zero hg
  unfold binOf
  have h1 : step * q + step - 1 = (step - 1) + step * q := by omega
  rw [h1, Nat.add_mul_div_left _ _ hstep, Nat.div_eq_of_lt (by omega)]
  simp

theorem binOf_least (step t g : Nat) (hstep : 0 < step) (hg : g % step = 0)
    (htg : t ≤ g) : binOf step t ≤ g := by
  have := binOf_mono step t g htg
  rwa [binOf_multiple step g hstep hg] at this

theorem mem_grid (s e step g : Nat) :
    g ∈ grid s e step ↔ ∃ i ≤ (e - s) / step, g = s + step * i := by
  simp [grid, List.mem_map, List.mem_range, Nat.lt_succ_iff, eq_comm]

theorem length_grid (s e step : Nat) :
    (grid s e step).length = (e - s) / step + 1 := by
  simp [grid]

theorem getD_drop (xs : List (Option ℚ)) (m i : Nat) :
    (xs.drop m).getD i none = xs.getD (m + i) none := by
  simp [List.getD_eq_getElem?_getD, List.getElem?_drop]

theorem interpolateCol_getD (xs : List (Option ℚ)) (m : Nat)
    (hm : m < xs.length) : (interpolateCol xs).getD m none = interpAt xs m :=
  getD_map_range _ _ _ _ hm

theorem length_interpolateCol (xs : List (Option ℚ)) :
    (interpolateCol xs).length = xs.length := by
  simp [interpolateCol]

theorem gapFill_getD (xs : List (Option ℚ)) (m : Nat) (hm : m < xs.length) :
    (gapFill xs).getD m none = bfillAt (interpolateCol xs) m := by
  unfold gapFill bfillCol
  exact getD_map_range _ _ _ _ (by rw [length_interpolateCol]; exact hm)

theorem length_gapFill (xs : List (Option ℚ)) :
    (gapFill xs).length = xs.length := by
  simp [gapFill, bfillCol, interpolateCol]

theorem interpAt_known (xs : List (Option ℚ)) (m : Nat) (v : ℚ)
    (h : xs.getD m none = some v) : interpAt xs m = some v := by
  unfold interpAt
  rw [h]

theorem bfillAt_known (xs : List (Option ℚ)) (m : Nat) (v : ℚ)
    (h : xs.getD m none = some v) : bfillAt xs m = some v := by
  unfold bfillAt
  rw [h]

theorem gapFill_known (xs : List (Option ℚ)) (m : Nat) (v : ℚ)
    (hm : m < xs.length) (h : xs.getD m none = some v) :
    (gapFill xs).getD m none = some v := by
  rw [gapFill_getD _ _ hm]
  exact bfillAt_known _ _ _ (by
    rw [interpolateCol_getD _ _ hm]
    exact interpAt_known _ _ _ h)

theorem lastKnown_of_le (xs : List (Option ℚ)) (L : Nat) (v : ℚ) :
    ∀ m, xs.getD L none = some v → L ≤ m →
      (∀ i, L < i → i ≤ m → xs.getD i none = none) →
      lastKnown xs m = some (L, v) := by
  intro m
  induction m with
  | zero =>
      intro hL hLm _
      have : L = 0 := Nat.le_zero.mp hLm
      subst this
      unfold lastKnown
      rw [hL]
  | succ m ih =>
      intro hL hLm hafter
      rcases Nat.eq_or_lt_of_le hLm with rfl | hlt
      · unfold lastKnown
        rw [hL]
      · unfold lastKnown
        rw [hafter (m + 1) hlt (le_refl _)]
        exact ih hL (by omega) (fun i h1 h2 => hafter i h1 (by omega))

theorem lastKnown_exists (xs : List (Option ℚ)) (i0 : Nat) (v0 : ℚ) :
    ∀ m, xs.getD i0 none = some v0 → i0 ≤ m →
      ∃ p, lastKnown xs m = some p := by
  intro m
  induction m with
  | zero =>
      intro h hi
      have : i0 = 0 := Nat.le_zero.mp hi
      subst this
      exact ⟨(0, v0), by unfold lastKnown; rw [h]⟩
  | succ m ih =>
      intro h hi
      rcases hm : xs.getD (m + 1) none with _ | w
      · rcases Nat.eq_or_lt_of_le hi with rfl | hlt
        · rw [h] at hm; cases hm
        · obtain ⟨p, hp⟩ := ih h (by omega)
          exact ⟨p, by unfold lastKnown; rw [hm]; exact hp⟩
      · exact ⟨(m + 1, w), by unfold lastKnown; rw [hm]⟩

theorem firstKnownAux_none (l : List (Option ℚ)) :
    ∀ i, (∀ x ∈ l, x = none) → firstKnownAux l i = none := by
  induction l with
  | nil => intro i _; rfl
  | cons x rest ih =>
      intro i h
      have hx : x = none := h x (List.mem_cons_self _ _)
      subst hx
      unfold firstKnownAux
      exact ih (i + 1) (fun y hy => h y (List.mem_cons_of_mem _ hy))

theorem firstKnown_none (xs : List (Option ℚ)) (m : Nat)
    (h : ∀ j, m ≤ j → xs.getD j none = none) : firstKnown xs m = none := by
  apply firstKnownAux_none
  intro x hx
  rcases List.getElem_of_mem hx with ⟨idx, hidx, hval⟩
  have h1 : (xs.drop m).getD idx none = x := by
    rw [List.getD_eq_getElem?_getD, List.getElem?_eq_getElem hidx, hval]
    rfl
  rw [getD_drop] at h1
  rw [← h1]
  exact h (m + idx) (by omega)

theorem firstKnownAux_exists (l : List (Option ℚ)) :
    ∀ i d v, l.getD d none = some v → ∃ p, firstKnownAux l i = some p := by
  induction l with
  | nil =>
      intro i d v h
      rw [List.getD_eq_getElem?_getD] at h
      simp at h
  | cons x rest ih =>
      intro i d v h
      rcases hx : x with _ | w
      · subst hx
        rcases d with _ | d'
        · rw [List.getD_cons_zero] at h; cases h
        · rw [List.getD_cons_succ] at h
          obtain ⟨p, hp⟩ := ih (i + 1) d' v h
          exact ⟨p, by unfold firstKnownAux; exact hp⟩
      · subst hx
        exact ⟨(i, w), rfl⟩

theorem firstKnown_exists (xs : List (Option ℚ)) (m j0 : Nat) (v0 : ℚ)
    (h : xs.getD j0 none = some v0) (hm : m ≤ j0) :
    ∃ p, firstKnown xs m = some p := by
  apply firstKnownAux_exists (xs.drop m) m (j0 - m) v0
  rw [getD_drop, show m + (j0 - m) = j0 from by omega]
  exact h

theorem interpAt_some_of_known_before (xs : List (Option ℚ)) (i0 : Nat)
    (v0 : ℚ) (m : Nat) (h : xs.getD i0 none = some v0) (hi : i0 ≤ m) :
    ∃ u, interpAt xs m = some u := by
  unfold interpAt
  rcases hm : xs.getD m none with _ | w
  · rcases m with _ | m'
    · have : i0 = 0 := Nat.le_zero.mp hi
      subst this
      rw [h] at hm; cases hm
    · have hi' : i0 ≤ m' := by
        rcases Nat.eq_or_lt_of_le hi with rfl | hlt
        · rw [h] at hm; cases hm
        · omega
      obtain ⟨⟨iL, vL⟩, hLK⟩ := lastKnown_exists xs i0 v0 m' h hi'
      rw [show prevKnown xs (m' + 1) = lastKnown xs m' from rfl, hLK]
      rcases hFK : firstKnown xs (m' + 1) with _ | p
      · exact ⟨vL, rfl⟩
      · obtain ⟨j, vj⟩ := p
        exact ⟨_, rfl⟩
  · exact ⟨w, rfl⟩

theorem interpAt_trailing (xs : List (Option ℚ)) (L : Nat) (vL : ℚ) (m : Nat)
    (hL : xs.getD L none = some vL)
    (hafter : ∀ i, L < i → xs.getD i none = none) (hm : L < m) :
    interpAt xs m = some vL := by
  rcases m with _ | m'
  · omega
  · unfold interpAt
    rw [hafter (m' + 1) hm,
      show prevKnown xs (m' + 1) = lastKnown xs m' from rfl,
      lastKnown_of_le xs L vL m' hL (by omega) (fun i h1 _ => hafter i h1),
      firstKnown_none xs (m' + 1) (fun j hj => hafter j (by omega))]

theorem gapFill_all_some (xs : List (Option ℚ)) (i0 : Nat) (v0 : ℚ)
    (h : xs.getD i0 none = some v0) (hi0 : i0 < xs.length) (m : Nat)
    (hm : m < xs.length) : ∃ u, (gapFill xs).getD m none = some u := by
  rw [gapFill_getD _ _ hm]
  rcases hcm : (interpolateCol xs).getD m none with _ | u
  · have hmi0 : m ≤ i0 := by
      by_contra hlt
      push_neg at hlt
      obtain ⟨u, hu⟩ := interpAt_some_of_known_before xs i0 v0 m h
        (le_of_lt hlt)
      rw [interpolateCol_getD _ _ hm, hu] at hcm
      cases hcm
    have hk : (interpolateCol xs).getD i0 none = some v0 := by
      rw [interpolateCol_getD _ _ hi0]
      exact interpAt_known _ _ _ h
    obtain ⟨⟨j, vj⟩, hp⟩ := firstKnown_exists (interpolateCol xs) m i0 v0
      hk hmi0
    refine ⟨vj, ?_⟩
    unfold bfillAt
    rw [hcm, hp]
    rfl
  · refine ⟨u, ?_⟩
    unfold bfillAt
    rw [hcm]

theorem gapFill_trailing (xs : List (Option ℚ)) (L : Nat) (vL : ℚ) (m : Nat)
    (hL : xs.getD L none = some vL)
    (hafter : ∀ i, L < i → xs.getD i none = none)
    (hm : m < xs.length) (hLm : L < m) :
    (gapFill xs).getD m none = some vL := by
  rw [gapFill_getD _ _ hm]
  apply bfillAt_known
  rw [interpolateCol_getD _ _ hm]
  exact interpAt_trailing xs L vL m hL hafter hLm

theorem length_joinedRows (obs : List Obs) (s e step : Nat) :
    (joinedRows obs s e step).length = (e - s) / step + 1 := by
  simp [joinedRows, grid]

theorem length_resampleDay (obs : List Obs) (s e step : Nat) :
    (resampleDay obs s e step).length = (e - s) / step + 1 := by
  unfold resampleDay
  rw [List.length_zipWith, length_gapFill, List.length_map,
    length_joinedRows]
  simp

theorem joinedRows_getElem (obs : List Obs) (s e step i : Nat)
    (hi : i < (joinedRows obs s e step).length) :
    (joinedRows obs s e step)[i]
      = (s + step * i, joinedRow obs step (s + step * i)) := by
  unfold joinedRows grid
  rw [List.getElem_map, List.getElem_map, List.getElem_range]

theorem priceCol_getD (obs : List Obs) (s e step i : Nat)
    (hi : i ≤ (e - s) / step) :
    ((joinedRows obs s e step).map (fun r => r.2.1)).getD i none
      = (joinedRow obs step (s + step * i)).1 := by
  have hlen : i < (joinedRows obs s e step).length := by
    rw [length_joinedRows]; omega
  rw [List.getD_eq_getElem?_getD, List.getElem?_map,
    List.getElem?_eq_getElem hlen, joinedRows_getElem obs s e step i hlen]
  rfl

theorem resampleDay_getD (obs : List Obs) (s e step i : Nat)
    (hi : i ≤ (e - s) / step) :
    (resampleDay obs s e step).getD i defaultRow
      = (s + step * i,
         (gapFill ((joinedRows obs s e step).map (fun r => r.2.1))).getD i
           none,
         (joinedRow obs step (s + step * i)).2) := by
  have hlen : i < (resampleDay obs s e step).length := by
    rw [length_resampleDay]; omega
  have hr : i < (joinedRows obs s e step).length := by
    rw [length_joinedRows]; omega
  have hf : i < (gapFill ((joinedRows obs s e step).map
      (fun r => r.2.1))).length := by
    rw [length_gapFill, List.length_map, length_joinedRows]; omega
  rw [List.getD_eq_getElem?_getD, List.getElem?_eq_getElem hlen]
  simp only [Option.getD_some]
  unfold resampleDay
  rw [List.getElem_zipWith]
  rw [joinedRows_getElem obs s e step i hr]
  rw [show (gapFill ((joinedRows obs s e step).map (fun r => r.2.1)))[i]
      = (gapFill ((joinedRows obs s e step).map (fun r => r.2.1))).getD i
        none from by
    rw [List.getD_eq_getElem?_getD, List.getElem?_eq_getElem hf]
    rfl]

theorem obs_time_bounds (obs : List Obs) (o : Obs) (ho : o ∈ obs) :
    ∃ tmin tmax, (obs.map (·.t)).min? = some tmin ∧
      (obs.map (·.t)).max? = some tmax ∧ tmin ≤ o.t ∧ o.t ≤ tmax := by
  have hne : obs.map (·.t) ≠ [] := by
    cases obs with
    | nil => cases ho
    | cons a t => simp
  obtain ⟨tmin, hmin⟩ : ∃ a, (obs.map (·.t)).min? = some a := by
    cases hobs : obs.map (·.t) with
    | nil => exact absurd hobs hne
    | cons x t => exact ⟨_, List.min?_cons⟩
  obtain ⟨tmax, hmax⟩ : ∃ a, (obs.map (·.t)).max? = some a := by
    cases hobs : obs.map (·.t) with
    | nil => exact absurd hobs hne
    | cons x t => exact ⟨_, List.max?_cons⟩
  have hmem : o.t ∈ obs.map (·.t) := List.mem_map.mpr ⟨o, ho, rfl⟩
  refine ⟨tmin, tmax, hmin, hmax, ?_, ?_⟩
  · exact ((List.min?_eq_some_iff (fun a => le_refl a)
      (fun a b => min_choice a b) (fun _ _ _ => Nat.le_min)).mp hmin).2
      o.t hmem
  · exact ((List.max?_eq_some_iff (fun a => le_refl a)
      (fun a b => max_choice a b) (fun _ _ _ => Nat.max_le)).mp hmax).2
      o.t hmem

theorem joinedRow_at_obs (obs : List Obs) (step : Nat) (o : Obs)
    (hstep : 0 < step) (ho : o ∈ obs) :
    ∃ v, (joinedRow obs step (binOf step o.t)).1 = some v := by
  obtain ⟨tmin, tmax, hmin, hmax, h1, h2⟩ := obs_time_bounds obs o ho
  have hspan : onSpan obs step (binOf step o.t) = true := by
    unfold onSpan
    rw [hmin, hmax]
    simp only [Bool.and_eq_true, decide_eq_true_eq]
    exact ⟨⟨binOf_mono step tmin o.t h1, binOf_mono step o.t tmax h2⟩,
      binOf_mod step o.t⟩
  unfold joinedRow
  rw [hspan]
  simp only [if_true]
  have hofilter : o ∈ obs.filter (inBin step (binOf step o.t)) := by
    rw [List.mem_filter]
    refine ⟨ho, ?_⟩
    unfold inBin
    simp only [Bool.and_eq_true, decide_eq_true_eq]
    exact ⟨binOf_ge step o.t hstep, binOf_lt_add step o.t hstep⟩
  have hne : obs.filter (inBin step (binOf step o.t)) ≠ [] := by
    intro hnil
    rw [hnil] at hofilter
    cases hofilter
  rcases hlast : (obs.filter (inBin step (binOf step o.t))).getLast?
      with _ | w
  · rw [List.getLast?_eq_getLast _ hne] at hlast
    cases hlast
  · exact ⟨w.p, rfl⟩

/-- C1, amended: every resampled symbol-day has exactly
`floor((end - start)/step) + 1` rows, one per grid timestamp from the
day's start to end time, with no missing and no extra rows; and after
gap-filling every row has a non-missing price provided at least one
aggregated observation falls in a bin whose label lies on the day's grid
(an observation alone is not enough: its bin label can fall beyond the
last grid stamp, or off the grid when the start time is not aligned to
the bin origin, leaving every price missing). -/
theorem c1_resampling (obs : List Obs) (s e step : Nat) (hstep : 0 < step)
    (hse : s ≤ e) :
    (resampleDay obs s e step).length = (e - s) / step + 1 ∧
    (resampleDay obs s e step).map (fun r => r.1) = grid s e step ∧
    ((∃ o ∈ obs, binOf step o.t ∈ grid s e step) →
      ∀ r ∈ resampleDay obs s e step, r.2.1 ≠ none) := by
  refine ⟨length_resampleDay obs s e step, ?_, ?_⟩
  · apply List.ext_getElem
    · rw [List.length_map, length_resampleDay, length_grid]
    · intro i h1 h2
      rw [List.getElem_map]
      have hi : i ≤ (e - s) / step := by
        rw [List.length_map, length_resampleDay] at h1
        omega
      have hlen : i < (resampleDay obs s e step).length := by
        rw [length_resampleDay]; omega
      have := resampleDay_getD obs s e step i hi
      rw [List.getD_eq_getElem?_getD, List.getElem?_eq_getElem hlen] at this
      simp only [Option.getD_some] at this
      rw [this]
      unfold grid
      rw [List.getElem_map, List.getElem_range]
  · rintro ⟨o, ho, hbin⟩ r hr
    obtain ⟨i0, hi0, hEq⟩ := (mem_grid s e step _).mp hbin
    obtain ⟨v0, hv0⟩ := joinedRow_at_obs obs step o hstep ho
    have hknown : ((joinedRows obs s e step).map (fun r => r.2.1)).getD i0
        none = some v0 := by
      rw [priceCol_getD obs s e step i0 hi0, ← hEq]
      exact hv0
    have hi0len : i0 < ((joinedRows obs s e step).map
        (fun r => r.2.1)).length := by
      rw [List.length_map, length_joinedRows]; omega
    obtain ⟨m, hm, hrm⟩ := List.mem_iff_getElem.mp hr
    have hmN : m ≤ (e - s) / step := by
      rw [length_resampleDay] at hm
      omega
    have hmlen : m < ((joinedRows obs s e step).map
        (fun r => r.2.1)).length := by
      rw [List.length_map, length_joinedRows]; omega
    obtain ⟨u, hu⟩ := gapFill_all_some _ i0 v0 hknown hi0len m hmlen
    have := resampleDay_getD obs s e step m hmN
    rw [List.getD_eq_getElem?_getD, List.getElem?_eq_getElem hm] at this
    simp only [Option.getD_some] at this
    rw [← hrm, this]
    simp only [ne_eq]
    rw [hu]
    simp

/-- C1, counterexample: a day with one aggregated observation at time 3
resampled with start 0, end 3, step 2: the row count is right, but the
observation's bin label (4) lies beyond the last grid stamp (2), so the
join matches nothing and both rows keep a missing price even after
gap-filling — refuting "after gap-filling every row has a non-missing
price (given the day has at least one aggregated observation)". -/
theorem c1_counterexample :
    ([(⟨3, 5, 1⟩ : Obs)] ≠ []) ∧
    (resampleDay [⟨3, 5, 1⟩] 0 3 2).length = (3 - 0) / 2 + 1 ∧
    ((resampleDay [⟨3, 5, 1⟩] 0 3 2).getD 0 defaultRow).2.1 = none ∧
    ((resampleDay [⟨3, 5, 1⟩] 0 3 2).getD 1 defaultRow).2.1 = none := by
  decide

/-- C1, witness: the amended theorem applied to a day whose observation
falls on the grid. -/
theorem c1_witness :
    (resampleDay [⟨2, 100, 1⟩] 0 4 2).length = (4 - 0) / 2 + 1 ∧
    ((0, some (100:ℚ), (none : Option ℤ)) : Nat × Option ℚ × Option ℤ).2.1
      ≠ none :=
  ⟨(c1_resampling [⟨2, 100, 1⟩] 0 4 2 (by decide) (by decide)).1,
   (c1_resampling [⟨2, 100, 1⟩] 0 4 2 (by decide) (by decide)).2.2
     ⟨⟨2, 100, 1⟩, by decide, by decide⟩
     (0, some (100:ℚ), (none : Option ℤ)) (by decide)⟩

/-- C3, amended: the size column of the resampled output is exactly the
joined size column — gap-filling touches only prices, so a size is never
interpolated or filled from neighbours; a grid interval on the resampled
span (between the first and last observation's bins) with no aggregated
trade reports size exactly 0; but a grid stamp off the span — before the
first trade's bin or after the last trade's bin — carries a missing size,
not 0, because the join leaves unmatched rows entirely missing. -/
theorem c3_sizes (obs : List Obs) (s e step : Nat) :
    (resampleDay obs s e step).map (fun r => r.2.2)
      = (joinedRows obs s e step).map (fun r => r.2.2) ∧
    (∀ g, onSpan obs step g = true → obs.filter (inBin step g) = [] →
      joinedRow obs step g = (none, some 0)) ∧
    (∀ g, onSpan obs step g = false →
      joinedRow obs step g = (none, none)) := by
  refine ⟨?_, ?_, ?_⟩
  · apply List.ext_getElem
    · rw [List.length_map, List.length_map, length_resampleDay,
        length_joinedRows]
    · intro i h1 h2
      have hi : i ≤ (e - s) / step := by
        rw [List.length_map, length_resampleDay] at h1
        omega
      have hlen : i < (resampleDay obs s e step).length := by
        rw [length_resampleDay]; omega
      have hr : i < (joinedRows obs s e step).length := by
        rw [length_joinedRows]; omega
      rw [List.getElem_map, List.getElem_map]
      have := resampleDay_getD obs s e step i hi
      rw [List.getD_eq_getElem?_getD, List.getElem?_eq_getElem hlen] at this
      simp only [Option.getD_some] at this
      rw [this, joinedRows_getElem obs s e step i hr]
  · intro g hspan hempty
    unfold joinedRow
    rw [hspan, hempty]
    simp
  · intro g hspan
    unfold joinedRow
    rw [hspan]
    simp

/-- C3, counterexample: a day with a single observation at time 4 (size
10) on the grid 0,2,4,6,8: the intervals before the first trade and after
the last trade have no aggregated trade, yet their size is missing
(`none`), not 0 — refuting "including grid points before the first trade
and after the last trade of the day". -/
theorem c3_counterexample :
    ([(⟨4, 100, 10⟩ : Obs)].filter (inBin 2 0) = []) ∧
    ((resampleDay [⟨4, 100, 10⟩] 0 8 2).getD 0 defaultRow).2.2 ≠ some 0 ∧
    ((resampleDay [⟨4, 100, 10⟩] 0 8 2).getD 0 defaultRow).2.2 = none ∧
    (resampleDay [⟨4, 100, 10⟩] 0 8 2).map (fun r => r.2.2)
      = [none, none, some 10, none, none] := by
  decide

/-- C3, witness: the amended size theorem applied to a two-observation
day with an empty in-span bin (label 4) and an off-span stamp (0). -/
theorem c3_witness :
    (resampleDay [⟨2, 100, 10⟩, ⟨6, 50, 5⟩] 0 8 2).map (fun r => r.2.2)
      = (joinedRows [⟨2, 100, 10⟩, ⟨6, 50, 5⟩] 0 8 2).map (fun r => r.2.2) ∧
    joinedRow [⟨2, 100, 10⟩, ⟨6, 50, 5⟩] 2 4 = (none, some 0) ∧
    joinedRow [⟨2, 100, 10⟩, ⟨6, 50, 5⟩] 2 0 = (none, none) :=
  ⟨(c3_sizes [⟨2, 100, 10⟩, ⟨6, 50, 5⟩] 0 8 2).1,
   (c3_sizes [⟨2, 100, 10⟩, ⟨6, 50, 5⟩] 0 8 2).2.1 4 (by decide) (by decide),
   (c3_sizes [⟨2, 100, 10⟩, ⟨6, 50, 5⟩] 0 8 2).2.2 0 (by decide)⟩

theorem getLastD_mem (l : List Obs) (d : Obs) (h : l ≠ []) :
    l.getLastD d ∈ l := by
  rw [List.getLastD_eq_getLast?, List.getLast?_eq_getLast l h]
  simp only [Option.getD_some]
  exact List.getLast_mem h

theorem sorted_le_getLastD (l : List Obs) :
    l.Pairwise (fun a b => a.t ≤ b.t) →
    ∀ (d : Obs), ∀ o ∈ l, o.t ≤ (l.getLastD d).t := by
  induction l with
  | nil => intro _ d o ho; cases ho
  | cons a rest ih =>
      intro hsort d o ho
      cases rest with
      | nil =>
          rcases List.mem_cons.mp ho with rfl | h
          · rw [List.getLastD_cons]
            exact le_refl _
          · cases h
      | cons b rest2 =>
          rw [List.getLastD_cons]
          rcases List.mem_cons.mp ho with rfl | h
          · have hmem := getLastD_mem (b :: rest2) o (by simp)
            exact (List.pairwise_cons.mp hsort).1 _ hmem
          · exact ih (List.pairwise_cons.mp hsort).2 a o h

theorem max?_eq_getLastD_t (obs : List Obs) (d : Obs) (hne : obs ≠ [])
    (hsort : obs.Pairwise (fun a b => a.t ≤ b.t)) :
    (obs.map (·.t)).max? = some ((obs.getLastD d).t) := by
  apply (List.max?_eq_some_iff (fun a => le_refl a)
    (fun a b => max_choice a b) (fun _ _ _ => Nat.max_le)).mpr
  constructor
  · exact List.mem_map.mpr ⟨obs.getLastD d, getLastD_mem obs d hne, rfl⟩
  · intro b hb
    rcases List.mem_map.mp hb with ⟨o, ho, rfl⟩
    exact sorted_le_getLastD obs hsort d o ho

theorem getLast_filter_of_last (obs : List Obs) (p : Obs → Bool) (d : Obs)
    (hne : obs ≠ []) (hp : p (obs.getLastD d) = true) :
    (obs.filter p).getLast? = some (obs.getLastD d) := by
  have hgl : obs.getLastD d = obs.getLast hne := by
    rw [List.getLastD_eq_getLast?, List.getLast?_eq_getLast _ hne]
    rfl
  conv_lhs => rw [← List.dropLast_append_getLast hne]
  rw [List.filter_append]
  rw [show List.filter p [obs.getLast hne] = [obs.getLast hne] from by
    rw [← hgl]
    simp only [List.filter_cons, hp, if_true, List.filter_nil]]
  rw [hgl]
  exact List.getLast?_concat _

/-- C10, amended: provided the day's start time is aligned to the
resampling bin origin (`s % step = 0`; pandas anchors sub-daily bins at
midnight), for a chronologically ordered symbol-day whose last aggregated
observation falls before the final grid timestamp, every grid stamp after
that last observation receives exactly the last observed price: the
interpolation step propagates the final known value forward through the
trailing gaps. -/
theorem c10_trailing_fill (obs : List Obs) (s e step : Nat)
    (hstep : 0 < step) (halign : s % step = 0) (hne : obs ≠ [])
    (hsort : obs.Pairwise (fun a b => a.t ≤ b.t))
    (hrange : ∀ o ∈ obs, s ≤ o.t)
    (hlast : (obs.getLastD ⟨0, 0, 0⟩).t < s + step * ((e - s) / step)) :
    ∀ i ≤ (e - s) / step, (obs.getLastD ⟨0, 0, 0⟩).t < s + step * i →
      ((resampleDay obs s e step).getD i defaultRow).2.1
        = some (obs.getLastD ⟨0, 0, 0⟩).p := by
  intro i hiN hgt
  have hsT : s ≤ (obs.getLastD ⟨0, 0, 0⟩).t :=
    hrange _ (getLastD_mem obs _ hne)
  have hsmul : binOf step s = s := binOf_multiple step s hstep halign
  have hsL : s ≤ binOf step (obs.getLastD ⟨0, 0, 0⟩).t := by
    have := binOf_mono step s _ hsT
    rwa [hsmul] at this
  have hLmod : binOf step (obs.getLastD ⟨0, 0, 0⟩).t % step = 0 :=
    binOf_mod step _
  have hgridmod : (s + step * ((e - s) / step)) % step = 0 := by
    rw [Nat.add_mul_mod_self_left]
    exact halign
  have hLgrid : binOf step (obs.getLastD ⟨0, 0, 0⟩).t
      ≤ s + step * ((e - s) / step) :=
    binOf_least step _ _ hstep hgridmod (le_of_lt hlast)
  obtain ⟨q, hq⟩ : step ∣ (binOf step (obs.getLastD ⟨0, 0, 0⟩).t - s) :=
    Nat.dvd_sub' (Nat.dvd_of_mod_eq_zero hLmod)
      (Nat.dvd_of_mod_eq_zero halign)
  have hLi : s + step * q = binOf step (obs.getLastD ⟨0, 0, 0⟩).t := by
    omega
  have hqN : q ≤ (e - s) / step := by
    have h1 : step * q ≤ step * ((e - s) / step) := by omega
    exact Nat.le_of_mul_le_mul_left h1 hstep
  have hxslen : ((joinedRows obs s e step).map (fun r => r.2.1)).length
      = (e - s) / step + 1 := by
    rw [List.length_map, length_joinedRows]
  have hmaxT := max?_eq_getLastD_t obs ⟨0, 0, 0⟩ hne hsort
  -- the known price at position q
  have hknown : ((joinedRows obs s e step).map (fun r => r.2.1)).getD q none
      = some ((obs.getLastD ⟨0, 0, 0⟩).p) := by
    rw [priceCol_getD obs s e step q hqN, hLi]
    obtain ⟨tmin, tmax, hmin, hmax, h1, h2⟩ :=
      obs_time_bounds obs (obs.getLastD ⟨0, 0, 0⟩) (getLastD_mem obs _ hne)
    have hspan : onSpan obs step
        (binOf step (obs.getLastD ⟨0, 0, 0⟩).t) = true := by
      unfold onSpan
      rw [hmin, hmaxT]
      simp only [Bool.and_eq_true, decide_eq_true_eq]
      exact ⟨⟨binOf_mono step tmin _ h1, le_refl _⟩, hLmod⟩
    unfold joinedRow
    rw [hspan]
    simp only [if_true]
    rw [getLast_filter_of_last obs _ ⟨0, 0, 0⟩ hne (by
      unfold inBin
      simp only [Bool.and_eq_true, decide_eq_true_eq]
      exact ⟨binOf_ge step _ hstep, binOf_lt_add step _ hstep⟩)]
    rfl
  -- positions after q are missing
  have hafter : ∀ idx, q < idx →
      ((joinedRows obs s e step).map (fun r => r.2.1)).getD idx none
        = none := by
    intro idx hidx
    by_cases hidxN : idx ≤ (e - s) / step
    · rw [priceCol_getD obs s e step idx hidxN]
      have hgL : binOf step (obs.getLastD ⟨0, 0, 0⟩).t < s + step * idx := by
        have h1 : step * (q + 1) ≤ step * idx := Nat.mul_le_mul_left step hidx
        rw [Nat.mul_succ] at h1
        omega
      obtain ⟨tmin, tmax, hmin, hmax, h1, h2⟩ :=
        obs_time_bounds obs (obs.getLastD ⟨0, 0, 0⟩) (getLastD_mem obs _ hne)
      have hspanF : onSpan obs step (s + step * idx) = false := by
        rw [Bool.eq_false_iff]
        intro hcontra
        unfold onSpan at hcontra
        rw [hmin, hmaxT] at hcontra
        simp only [Bool.and_eq_true, decide_eq_true_eq] at hcontra
        omega
      unfold joinedRow
      rw [hspanF]
      simp
    · push_neg at hidxN
      apply List.getD_eq_default
      omega
  -- i is at or after q
  have hqi : q ≤ i := by
    have hmod : (s + step * i) % step = 0 := by
      rw [Nat.add_mul_mod_self_left]
      exact halign
    have hLle : binOf step (obs.getLastD ⟨0, 0, 0⟩).t ≤ s + step * i :=
      binOf_least step _ _ hstep hmod (le_of_lt hgt)
    have h1 : step * q ≤ step * i := by omega
    exact Nat.le_of_mul_le_mul_left h1 hstep
  rw [resampleDay_getD obs s e step i hiN]
  show (gapFill ((joinedRows obs s e step).map (fun r => r.2.1))).getD i none
    = some ((obs.getLastD ⟨0, 0, 0⟩).p)
  rcases Nat.eq_or_lt_of_le hqi with heq | hlt
  · rw [← heq]
    exact gapFill_known _ q _ (by omega) hknown
  · exact gapFill_trailing _ q _ i hknown hafter (by omega) hlt

/-- C10, counterexample: with a start time not aligned to the bin origin
(start 1, step 2), the bin labels (even numbers) never match the grid
stamps (odd numbers), so the grid stamps after the last observation
(time 2 < final stamp 5) keep a missing price instead of the last
observed price. -/
theorem c10_counterexample :
    ((List.getLastD [(⟨2, 100, 1⟩ : Obs)] ⟨0, 0, 0⟩).t = 2) ∧
    ((resampleDay [⟨2, 100, 1⟩] 1 5 2).getD 1 defaultRow).1 = 3 ∧
    ((2:Nat) < 3) ∧
    ((resampleDay [⟨2, 100, 1⟩] 1 5 2).getD 1 defaultRow).2.1 = none ∧
    ((resampleDay [⟨2, 100, 1⟩] 1 5 2).getD 2 defaultRow).2.1 = none := by
  decide

/-- C10, witness: with an aligned start, the stamp after the last
observation carries the last observed price. -/
theorem c10_witness :
    ((resampleDay [⟨2, 100, 1⟩] 0 5 2).getD 2 defaultRow).2.1
      = some (100 : ℚ) :=
  c10_trailing_fill [⟨2, 100, 1⟩] 0 5 2 (by decide) (by decide) (by decide)
    (by decide) (by decide) (by decide) 2 (by decide) (by decide)

end ExtractData
